import Mathlib

/-!
Verification development for the hexary Merkle-Patricia-Trie core
(`mpt/MerklePatriciaTrie.go`).

Modelling conventions:
* Go `[]byte` values (byte keys, nibble sequences, stored values, digests)
  are `List Nat`; byte-valued entries are below 256 and nibble-valued
  entries below 16 exactly where the Go types guarantee it, and theorems
  carry those bounds as hypotheses where they matter.
* Go `byte` arithmetic is mirrored exactly: `b >> 4` is `b >>> 4`,
  `b & 0x0F` is `b &&& 15`, and the byte truncation of `x << 4` is
  `(x <<< 4) % 256`.
* The Keccak-256 function is external to the repository, so the hash
  engine is parametrised by an arbitrary `H : List Nat → List Nat`;
  `common.Hash{}` (the all-zero digest) is `zeroHash`.
* The polymorphic `TrieNode` interface with its three implementations
  (`HashNode`, `ShortNode`, `FullNode`) and the untyped `nil` become one
  inductive type with a `nilNode` constructor; the seventeen-slot child array of a `FullNode` becomes a `List TrieNode` of length 17 in
  which `nilNode` marks an empty slot.  The unused `Flags` field is
  dropped; the cached-digest fields are kept.
* The Go `insert` helper returns `(dirty, node, err)`, but inspection of
  every return site shows `dirty = false` exactly when `err ≠ nil`, so
  the model returns `Except String TrieNode`.  The recursion through
  `resolveAndTrack` re-enters `insert` on a larger node, and on
  malformed (unreachable) nodes the Go code would not terminate, so the
  model takes a fuel parameter and returns `none` on fuel exhaustion.
-/

namespace MPT

/-- Model of `keyToNibbles` from the source: split every byte into its high and
low nibble. -/
def keyToNibbles (key : List Nat) : List Nat :=
  key.flatMap fun b => [b >>> 4, b &&& 15]

/-- Helper for `nibblesToKey`: pack consecutive nibble pairs into bytes
exactly as the Go loop `key[i] = (nibbles[i*2] << 4) | nibbles[i*2+1]`
does on `byte` values. -/
def packNibbles : List Nat → List Nat
  | a :: b :: rest => (((a <<< 4) % 256) ||| b) :: packNibbles rest
  | _ => []

/-- Model of `nibblesToKey` from the source: append a zero nibble when the length
is odd, then pack pairs into bytes. -/
def nibblesToKey (nibbles : List Nat) : List Nat :=
  if nibbles.length % 2 ≠ 0 then packNibbles (nibbles ++ [0])
  else packNibbles nibbles

/-- Model of `prefixLen` from the source: length of the longest common prefix. -/
def prefixLen : List Nat → List Nat → Nat
  | a :: as, b :: bs => if a = b then prefixLen as bs + 1 else 0
  | _, _ => 0

/-- The all-zero 32-byte digest `common.Hash{}`. -/
def zeroHash : List Nat := List.replicate 32 0

/-- The trie node model.  `nilNode` is Go `nil`; `hashNode` is
`HashNode` with fields `Pre`, `Key`, `Value`, `Hash`, `Path`;
`shortNode` is `ShortNode` with fields `Path`, `Key`, `Val`, `hashVal`;
`fullNode` is `FullNode` with fields `Path`, `Children` (a list of
length 17), `HashVal`. -/
inductive TrieNode : Type where
  | nilNode : TrieNode
  | hashNode (pre key value hash path : List Nat) : TrieNode
  | shortNode (path key : List Nat) (val : TrieNode) (hashVal : List Nat) : TrieNode
  | fullNode (path : List Nat) (children : List TrieNode) (hashVal : List Nat) : TrieNode

/-- The empty 17-slot child array of a fresh `FullNode`. -/
def emptyChildren : List TrieNode := List.replicate 17 .nilNode

/-- Read child slot `i` (Go `node.Children[i]`). -/
def getChild (ch : List TrieNode) (i : Nat) : TrieNode := ch.getD i .nilNode

/-- Write child slot `i` (Go `node.Children[i] = x`). -/
def setChild (ch : List TrieNode) (i : Nat) (x : TrieNode) : List TrieNode :=
  ch.set i x

/-- The trie structure: `Root` may be `nil`. -/
structure Trie : Type where
  root : TrieNode

/-- Model of `NewTrie` from the source: the empty trie. -/
def NewTrie : Trie := ⟨.nilNode⟩

/-- Model of `resolveAndTrack` from the source, acting on a `HashNode` with
fields `pre`, `key`, `value`, `hash`, `path` under insertion key `key2`
at trie position `pathArg`.  The Go code mutates `n.Pre` in place in the
middle case; the model returns the node with the trimmed prefix
instead. -/
def resolveAndTrack (pre key value hash path : List Nat)
    (key2 pathArg : List Nat) : Except String TrieNode :=
  let l := prefixLen pre key2
  if l = pre.length then
    if pre = key2 then .error "node exists"
    else
      .ok (.fullNode (nibblesToKey pathArg)
        (setChild emptyChildren 16 (.hashNode [] [] value zeroHash []))
        zeroHash)
  else if l ≠ 0 then
    .ok (.shortNode (nibblesToKey pathArg) (nibblesToKey (key2.take l))
      (.hashNode (pre.drop l) key value hash path) zeroHash)
  else
    .ok (.fullNode (nibblesToKey pathArg)
      (match pre with
       | p0 :: _ =>
         if p0 < 16 then
           setChild emptyChildren p0 (.hashNode pre key value hash path)
         else setChild emptyChildren 16 (.hashNode pre key value hash path)
       | [] => setChild emptyChildren 16 (.hashNode pre key value hash path))
      zeroHash)

/-- The recursive `insert` helper from the source.  The Go pair
`(dirty, err)` satisfies `dirty = false ↔ err ≠ nil` at every return
site, so the model returns `Except String TrieNode`; the extra `fuel`
argument makes the `resolveAndTrack` re-entry (which re-runs `insert`
with the same key on a freshly built node) structurally total, and
`none` means the fuel ran out. -/
def insert : Nat → TrieNode → List Nat → List Nat → List Nat →
    Option (Except String TrieNode)
  | 0, _, _, _, _ => none
  | _ + 1, .nilNode, path, key, value =>
      some (.ok (.hashNode key (nibblesToKey (path ++ key)) value zeroHash
        (nibblesToKey (path ++ key))))
  | fuel + 1, .shortNode nPath nKey nVal _, path, key, value =>
      let nodeKeyNibbles := keyToNibbles nKey
      let matchlen := prefixLen key nodeKeyNibbles
      if matchlen = nodeKeyNibbles.length then
        -- full match with the short-node key: continue in the child
        let newPath := path ++ nodeKeyNibbles
        match insert fuel nVal newPath (key.drop matchlen) value with
        | none => none
        | some (.error e) => some (.error e)
        | some (.ok nn) =>
            some (.ok (.shortNode (nibblesToKey newPath) nKey nn zeroHash))
      else if matchlen = key.length then
        -- the new key is a proper prefix of the short-node key
        if matchlen < nodeKeyNibbles.length ∧ nodeKeyNibbles.getD matchlen 0 < 16 then
          some (.ok (.shortNode (nibblesToKey path) (nibblesToKey key)
            (.fullNode (nibblesToKey (path ++ key))
              (setChild (setChild emptyChildren 16 (.hashNode [] [] value zeroHash []))
                (nodeKeyNibbles.getD matchlen 0)
                (.shortNode (nibblesToKey (path ++ key))
                  (nibblesToKey (nodeKeyNibbles.drop matchlen)) nVal zeroHash))
              zeroHash)
            zeroHash))
        else some (.error "invalid nibble value or index out of range")
      else if matchlen = 0 then
        -- no common prefix: branch at this position
        if nodeKeyNibbles ≠ [] ∧ nodeKeyNibbles.getD 0 0 < 16 then
          if key ≠ [] ∧ key.getD 0 0 < 16 then
            some (.ok (.fullNode (nibblesToKey path)
              (setChild
                (setChild emptyChildren (nodeKeyNibbles.getD 0 0)
                  (.shortNode nPath nKey nVal zeroHash))
                (key.getD 0 0)
                (.hashNode key [] value zeroHash (nibblesToKey (path ++ key))))
              zeroHash))
          else some (.error "invalid nibble value or index out of range")
        else some (.error "invalid nibble value or index out of range")
      else
        -- partial match: split the short node
        if matchlen < nodeKeyNibbles.length ∧ nodeKeyNibbles.getD matchlen 0 < 16 then
          if matchlen < key.length ∧ key.getD matchlen 0 < 16 then
            some (.ok (.shortNode (nibblesToKey path) (nibblesToKey (key.take matchlen))
              (.fullNode (nibblesToKey (path ++ key.take matchlen))
                (setChild
                  (setChild emptyChildren (nodeKeyNibbles.getD matchlen 0)
                    (.shortNode nPath (nibblesToKey (nodeKeyNibbles.drop matchlen))
                      nVal zeroHash))
                  (key.getD matchlen 0)
                  (.hashNode (key.drop matchlen) [] value zeroHash
                    (nibblesToKey (path ++ key.take matchlen))))
                zeroHash)
              zeroHash))
          else some (.error "invalid nibble value or index out of range")
        else some (.error "invalid nibble value or index out of range")
  | fuel + 1, .fullNode nPath ch nHash, path, key, value =>
      match key with
      | [] => some (.error "empty key")
      | k0 :: krest =>
        if 16 ≤ k0 then some (.error "invalid nibble value")
        else
          match insert fuel (getChild ch k0) (path ++ [k0]) krest value with
          | none => none
          | some (.error e) => some (.error e)
          | some (.ok nn) => some (.ok (.fullNode nPath (setChild ch k0 nn) nHash))
  | fuel + 1, .hashNode pre nKey nValue nHash nPathF, path, key, value =>
      match resolveAndTrack pre nKey nValue nHash nPathF key path with
      | .error e => some (.error e)
      | .ok rn => insert fuel rn path key value

/-- Model of `Insert` from the source: reject the empty key, otherwise run the
recursive merge and swap the root on success.  The pair returned is the
trie the caller observes afterwards together with the error, `none`
meaning fuel exhaustion inside the recursion. -/
def Insert (t : Trie) (key value : List Nat) (fuel : Nat) :
    Option (Trie × Option String) :=
  if key.length = 0 then some (t, some "key cannot be empty")
  else
    match insert fuel t.root [] (keyToNibbles key) value with
    | none => none
    | some (.error e) => some (t, some e)
    | some (.ok n) => some (⟨n⟩, none)

mutual

/-- Model of `fixedPath` from the source: recompute every stored path top-down
(slot 16 of a branch is not visited by the Go loop `i < 16`). -/
def fixedPath : TrieNode → List Nat → TrieNode
  | .nilNode, _ => .nilNode
  | .hashNode pre key value hash _, _ => .hashNode pre key value hash key
  | .shortNode _ nKey nVal nHash, path =>
      .shortNode (nibblesToKey path) nKey
        (match nVal with
         | .nilNode => .nilNode
         | v => fixedPath v (path ++ keyToNibbles nKey))
        nHash
  | .fullNode _ ch nHash, path =>
      .fullNode (nibblesToKey path) (fixedChildren ch 0 path) nHash

/-- The loop body of `fixedPath` on a branch: visit children at slots
`i, i+1, …, 15`. -/
def fixedChildren : List TrieNode → Nat → List Nat → List TrieNode
  | [], _, _ => []
  | c :: rest, i, path =>
      (match c with
       | .nilNode => .nilNode
       | c => if i < 16 then fixedPath c (path ++ [i]) else c)
      :: fixedChildren rest (i + 1) path

end

mutual

/-- Model of `ComputeHash` from the source, parametrised by the hash function
`H` standing for Keccak-256.  A leaf with a non-zero cached digest
returns the cache; branch data is assembled by `childrenData`. -/
def ComputeHash (H : List Nat → List Nat) : TrieNode → List Nat
  | .nilNode => zeroHash
  | .hashNode pre _ value hash _ =>
      if hash ≠ zeroHash then hash else H (pre ++ value)
  | .shortNode _ nKey nVal _ => H (keyToNibbles nKey ++ ComputeHash H nVal)
  | .fullNode _ ch _ => H (childrenData H ch 0)

/-- The branch-data loop of `ComputeHash`: for every non-empty slot in
ascending order append the slot index byte and the child digest. -/
def childrenData (H : List Nat → List Nat) : List TrieNode → Nat → List Nat
  | [], _ => []
  | c :: rest, i =>
      (match c with
       | .nilNode => []
       | c => i :: ComputeHash H c)
      ++ childrenData H rest (i + 1)

end

mutual

/-- Model of `calculateHashes` from the source: decide whether a subtree
contains a target and how many sibling digests the proof needs. -/
def calculateHashes : TrieNode → List (List Nat) → Bool × Nat
  | .nilNode, _ => (false, 0)
  | .hashNode _ key _ _ _, ts => (ts.any (fun t => keyToNibbles key = t), 0)
  | .shortNode _ _ nVal _, ts => calculateHashes nVal ts
  | .fullNode _ ch _, ts =>
      let st := calcChildren ch 16 ts (0, 0, false)
      if st.2.2 then (true, st.2.1 + st.1) else (false, 0)

/-- The branch loop of `calculateHashes` over the first sixteen slots;
the accumulator is `(allFalseCount, totalNeedSum, anyTrueFlag)`. -/
def calcChildren : List TrieNode → Nat → List (List Nat) →
    Nat × Nat × Bool → Nat × Nat × Bool
  | _, 0, _, acc => acc
  | [], _, _, acc => acc
  | c :: rest, k + 1, ts, acc =>
      match c with
      | .nilNode => calcChildren rest k ts acc
      | c =>
          let r := calculateHashes c ts
          if r.1 then calcChildren rest k ts (acc.1, acc.2.1 + r.2, true)
          else calcChildren rest k ts (acc.1 + 1, acc.2.1, acc.2.2)

end

/-- Model of `CalculateRequiredHashes2` from the source; the transaction list is
modelled by the list of transaction hash bytes `tx.Hash().Bytes()`. -/
def CalculateRequiredHashes2 (t : Trie) (transactions : List (List Nat)) : Nat :=
  match t.root, transactions with
  | .nilNode, _ => 0
  | _, [] => 0
  | root, txs =>
      let txHashes := txs.map keyToNibbles
      let r := calculateHashes root txHashes
      if r.1 then r.2 else 0

/-- The insertion loop of `BuildMPTTree` from the source: insert every
record, skipping records whose insertion fails. -/
def insertLoop (fuel : Nat) : Trie → List (List Nat × List Nat) → Option Trie
  | t, [] => some t
  | t, (k, v) :: rest =>
      match Insert t k v fuel with
      | none => none
      | some (t2, _) => insertLoop fuel t2 rest

/-- Model of `BuildMPTTree` from the source without the timing instrumentation:
insert all records (skipping failures), then run the `fixedPath`
repair pass from the root.  The final `ComputeHash` call of the source
only fills digest caches and is left to the digest pipeline. -/
def BuildMPTTree (fuel : Nat) (t : Trie) (txs : List (List Nat × List Nat)) :
    Option Trie :=
  (insertLoop fuel t txs).map fun t2 => ⟨fixedPath t2.root []⟩

/-- The published commitment of a trie: `fixedPath` repair followed by
`ComputeHash` from the root, as `BuildMPTTree` runs them. -/
def rootDigest (H : List Nat → List Nat) (t : Trie) : List Nat :=
  ComputeHash H (fixedPath t.root [])

/-- Observer: is a node a real node (Go `node != nil`)? -/
def notNil : TrieNode → Bool
  | .nilNode => false
  | _ => true

mutual

/-- Observer: the `Key` fields of every `HashNode` in a subtree, in
traversal order. -/
def leafKeys : TrieNode → List (List Nat)
  | .nilNode => []
  | .hashNode _ key _ _ _ => [key]
  | .shortNode _ _ v _ => leafKeys v
  | .fullNode _ ch _ => leafKeysList ch

/-- Observer `leafKeys` over a child list. -/
def leafKeysList : List TrieNode → List (List Nat)
  | [] => []
  | c :: rest => leafKeys c ++ leafKeysList rest

end

mutual

/-- The structural invariant exactly as the claim states it: every
`ShortNode` has a non-nil child and a non-empty key segment, and every
`FullNode` has at least one non-empty slot. -/
def specNodeInvariant : TrieNode → Bool
  | .nilNode => true
  | .hashNode _ _ _ _ _ => true
  | .shortNode _ k v _ => notNil v && decide (k ≠ []) && specNodeInvariant v
  | .fullNode _ ch _ => ch.any notNil && specNodeInvariantList ch

/-- Predicate `specNodeInvariant` over a child list. -/
def specNodeInvariantList : List TrieNode → Bool
  | [] => true
  | c :: rest => specNodeInvariant c && specNodeInvariantList rest

end

mutual

/-- The part of the structural invariant the code actually maintains:
every `ShortNode` has a non-nil child and every `FullNode` has at least
one non-empty slot (key segments may be empty). -/
def nodeInv : TrieNode → Bool
  | .nilNode => true
  | .hashNode _ _ _ _ _ => true
  | .shortNode _ _ v _ => notNil v && nodeInv v
  | .fullNode _ ch _ => ch.any notNil && nodeInvList ch

/-- Predicate `nodeInv` over a child list. -/
def nodeInvList : List TrieNode → Bool
  | [] => true
  | c :: rest => nodeInv c && nodeInvList rest

end

/-- The tries reachable from the empty trie by `Insert` calls. -/
inductive Reachable : Trie → Prop where
  | empty : Reachable NewTrie
  | step (t : Trie) (k v : List Nat) (fuel : Nat) (t2 : Trie) (e : Option String) :
      Reachable t → Insert t k v fuel = some (t2, e) → Reachable t2

/-- Modelled from the spec (§4.4 Branch rule): evaluate `calculateHashes`
on every non-empty slot of the given slot list; with `hit` hits and
`miss` non-empty misses, return `(false, 0)` when `hit = 0` and
otherwise `(true, sum of the hitting costs + miss)`. -/
def specBranchCost (slots : List TrieNode) (ts : List (List Nat)) : Bool × Nat :=
  let rs := (slots.filter notNil).map fun c => calculateHashes c ts
  let hits := rs.filter fun r => r.1
  let miss := (rs.filter fun r => !r.1).length
  if hits.length = 0 then (false, 0)
  else (true, (hits.map fun r => r.2).sum + miss)

/-- Modelled from the spec (§4.3 Branch digest): concatenation, in
ascending slot order starting at `i`, of the slot index byte followed by
the child digest, for every non-empty (`some`) slot. -/
def specBranchData : Nat → List (Option (List Nat)) → List Nat
  | _, [] => []
  | i, none :: rest => specBranchData (i + 1) rest
  | i, some d :: rest => i :: (d ++ specBranchData (i + 1) rest)

/-- The per-slot digests of a child list: `none` for an empty slot,
otherwise the recursively computed digest. -/
def childDigests (H : List Nat → List Nat) (ch : List TrieNode) :
    List (Option (List Nat)) :=
  ch.map fun c =>
    match c with
    | .nilNode => none
    | c => some (ComputeHash H c)

mutual

/-- State-threaded rendering of `calculateHashes`: alongside the result
it returns the node as rebuilt from every field the traversal visits,
making the read-only claim provable as `rebuilt = original`. -/
def calculateHashesT : TrieNode → List (List Nat) → (Bool × Nat) × TrieNode
  | .nilNode, _ => ((false, 0), .nilNode)
  | .hashNode pre key value hash path, ts =>
      ((ts.any (fun t => keyToNibbles key = t), 0), .hashNode pre key value hash path)
  | .shortNode p k v h, ts =>
      let r := calculateHashesT v ts
      (r.1, .shortNode p k r.2 h)
  | .fullNode p ch h, ts =>
      let st := calcChildrenT ch 16 ts (0, 0, false)
      ((if st.1.2.2 then (true, st.1.2.1 + st.1.1) else (false, 0)),
        .fullNode p st.2 h)

/-- State-threaded rendering of `calcChildren`. -/
def calcChildrenT : List TrieNode → Nat → List (List Nat) →
    Nat × Nat × Bool → (Nat × Nat × Bool) × List TrieNode
  | ch, 0, _, acc => (acc, ch)
  | [], _, _, acc => (acc, [])
  | c :: rest, k + 1, ts, acc =>
      match c with
      | .nilNode =>
          let r := calcChildrenT rest k ts acc
          (r.1, .nilNode :: r.2)
      | c =>
          let rc := calculateHashesT c ts
          let acc2 :=
            if rc.1.1 then (acc.1, acc.2.1 + rc.1.2, true)
            else (acc.1 + 1, acc.2.1, acc.2.2)
          let r := calcChildrenT rest k ts acc2
          (r.1, rc.2 :: r.2)

end

/-- State-threaded rendering of `CalculateRequiredHashes2`: the count
together with the trie as rebuilt by the traversal. -/
def CalculateRequiredHashes2T (t : Trie) (transactions : List (List Nat)) :
    Nat × Trie :=
  match t.root, transactions with
  | .nilNode, _ => (0, t)
  | _, [] => (0, t)
  | root, txs =>
      let txHashes := txs.map keyToNibbles
      let r := calculateHashesT root txHashes
      (if r.1.1 then r.1.2 else 0, ⟨r.2⟩)

/-- The branch children used by the slot-16 counterexample: slot 0
holds the leaf for key `0x0A`, slot 16 holds a populated value leaf. -/
def slot16Children : List TrieNode :=
  setChild (setChild emptyChildren 0 (.hashNode [0, 10] [10] [1] zeroHash [])) 16
    (.hashNode [] [] [2] zeroHash [])

/-! ## Theorems -/

theorem keyToNibbles_nil : keyToNibbles [] = [] := rfl

theorem keyToNibbles_cons (x : Nat) (xs : List Nat) :
    keyToNibbles (x :: xs) = x >>> 4 :: (x &&& 15) :: keyToNibbles xs := rfl

theorem keyToNibbles_length (b : List Nat) :
    (keyToNibbles b).length = 2 * b.length := by
  induction b with
  | nil => rfl
  | cons x xs ih =>
      rw [keyToNibbles_cons]
      simp only [List.length_cons, ih, List.length_cons]
      omega

theorem shiftRight_four (x : Nat) : x >>> 4 = x / 16 := by
  rw [Nat.shiftRight_eq_div_pow]

set_option maxRecDepth 4096 in
theorem byte_pack_unpack :
    ∀ x, x < 256 → (((x >>> 4) <<< 4) % 256) ||| (x &&& 15) = x := by
  decide

theorem packNibbles_keyToNibbles (b : List Nat) (hb : ∀ x ∈ b, x < 256) :
    packNibbles (keyToNibbles b) = b := by
  induction b with
  | nil => rfl
  | cons x xs ih =>
      have hx : x < 256 := hb x (List.mem_cons_self x xs)
      have hxs : ∀ y ∈ xs, y < 256 := fun y hy => hb y (List.mem_cons_of_mem x hy)
      rw [keyToNibbles_cons, packNibbles, ih hxs, byte_pack_unpack x hx]

theorem keyToNibbles_inj : ∀ a b : List Nat,
    keyToNibbles a = keyToNibbles b → a = b := by
  intro a
  induction a with
  | nil =>
      intro b h
      cases b with
      | nil => rfl
      | cons y ys => rw [keyToNibbles_nil, keyToNibbles_cons] at h; cases h
  | cons x xs ih =>
      intro b h
      cases b with
      | nil => rw [keyToNibbles_nil, keyToNibbles_cons] at h; cases h
      | cons y ys =>
          rw [keyToNibbles_cons, keyToNibbles_cons] at h
          simp only [List.cons.injEq] at h
          obtain ⟨h1, h2, h3⟩ := h
          have hx : x = y := by
            rw [shiftRight_four, shiftRight_four] at h1
            rw [Nat.and_pow_two_sub_one_eq_mod x 4,
              Nat.and_pow_two_sub_one_eq_mod y 4] at h2
            omega
          rw [hx, ih ys h3]

theorem keyToNibbles_lt16 (b : List Nat) (hb : ∀ x ∈ b, x < 256) :
    ∀ n ∈ keyToNibbles b, n < 16 := by
  induction b with
  | nil => intro n hn; rw [keyToNibbles_nil] at hn; cases hn
  | cons x xs ih =>
      intro n hn
      rw [keyToNibbles_cons] at hn
      have hx : x < 256 := hb x (List.mem_cons_self x xs)
      rcases List.mem_cons.mp hn with h | hn2
      · subst h; rw [shiftRight_four]; omega
      rcases List.mem_cons.mp hn2 with h | h
      · subst h; rw [Nat.and_pow_two_sub_one_eq_mod x 4]; omega
      · exact ih (fun y hy => hb y (List.mem_cons_of_mem x hy)) n h

/-- Claim C9: for every byte sequence, `keyToNibbles` yields exactly
twice as many symbols, all below 16, and `nibblesToKey` inverts it
exactly. -/
theorem key_codec_round_trip (b : List Nat) (hb : ∀ x ∈ b, x < 256) :
    (keyToNibbles b).length = 2 * b.length ∧
      (∀ n ∈ keyToNibbles b, n < 16) ∧
      nibblesToKey (keyToNibbles b) = b := by
  refine ⟨keyToNibbles_length b, keyToNibbles_lt16 b hb, ?_⟩
  have heven : (keyToNibbles b).length % 2 = 0 := by
    rw [keyToNibbles_length]; omega
  rw [nibblesToKey, if_neg (by omega)]
  exact packNibbles_keyToNibbles b hb

/-- Witness for the key-codec round trip at the two-byte key
`0xAB 0xCD`. -/
theorem key_codec_round_trip_witness :
    (∀ x ∈ [171, 205], x < 256) ∧
      ((keyToNibbles [171, 205]).length = 2 * 2 ∧
        (∀ n ∈ keyToNibbles [171, 205], n < 16) ∧
        nibblesToKey (keyToNibbles [171, 205]) = [171, 205]) :=
  ⟨by decide, key_codec_round_trip [171, 205] (by decide)⟩

/-- Claim C8: inserting with an empty key returns the empty-key error
(`InvalidKey` in the taxonomy of the spec) and the trie the caller
observes is exactly the one it passed in. -/
theorem insert_empty_key_rejected (t : Trie) (v : List Nat) (fuel : Nat) :
    Insert t [] v fuel = some (t, some "key cannot be empty") := rfl

/-- Claim C5: inserting keys `0x0A`, `0x0B`, `0x1C` in that order with
arbitrary values and asking the proof cost for the target set
containing only `0x0A` yields exactly 2. -/
theorem concrete_scenario_cost_two (vA vB vC : List Nat) :
    (insertLoop 10 NewTrie [([10], vA), ([11], vB), ([28], vC)]).map
      (fun t => CalculateRequiredHashes2 t [[10]]) = some 2 := rfl

/-- Claim C1 (failing input): inserting the pairs
`(0x0A, [1])` and `(0xB0, [2])` in the two possible orders and running
the `fixedPath` plus `ComputeHash` pipeline yields different root
digests (shown with the identity standing for the hash function: the
hash preimages at the root differ, so any collision-free hash
separates them). -/
theorem insert_order_changes_digest :
    (insertLoop 10 NewTrie [([10], [1]), ([176], [2])]).map
        (rootDigest (fun d => d)) ≠
      (insertLoop 10 NewTrie [([176], [2]), ([10], [1])]).map
        (rootDigest (fun d => d)) := by
  decide

/-- Claim C2 (counterexample): on a Branch whose slot 0 holds the leaf
for target `0x0A` and whose value slot 16 is populated but not a
target, the code returns `(true, 0)` while the claimed 17-slot rule
returns `(true, 1)` — slot 16 is not charged. -/
theorem branch_cost_slot16_counterexample :
    calculateHashes (.fullNode [] slot16Children zeroHash) [keyToNibbles [10]]
        = (true, 0) ∧
      specBranchCost slot16Children [keyToNibbles [10]] = (true, 1) :=
  ⟨rfl, rfl⟩

/-- Claim C3 (counterexample): after inserting `0x0A` and `0xB0`, the
full key `0x0A` is present as a leaf, yet inserting `0x0A` again
returns no error and mutates the trie, duplicating the leaf. -/
theorem duplicate_key_not_detected :
    ∃ t t2 : Trie,
      insertLoop 10 NewTrie [([10], [1]), ([176], [2])] = some t ∧
        leafKeys t.root = [[10], [176]] ∧
        Insert t [10] [3] 10 = some (t2, none) ∧
        leafKeys t2.root = [[10], [10], [176]] :=
  ⟨_, _, rfl, rfl, rfl, rfl⟩

/-- Claim C7 (counterexample): a trie reached from the empty trie by
five successful `Insert` calls contains an Extension with an empty key
segment, violating the claimed structural invariant. -/
theorem reachable_trie_violates_invariant :
    ∃ t : Trie,
      insertLoop 10 NewTrie
          [([10], [7]), ([176], [7]), ([11], [7]), ([0, 11], [7]), ([0], [7])]
        = some t ∧
      specNodeInvariant t.root = false :=
  ⟨_, rfl, rfl⟩

theorem notNil_eq_false (c : TrieNode) (h : notNil c = false) : c = .nilNode := by
  cases c with
  | nilNode => rfl
  | hashNode pre key value hash path => simp [notNil] at h
  | shortNode p k v hv => simp [notNil] at h
  | fullNode p ch hv => simp [notNil] at h

theorem calcChildren_cons_nil (rest : List TrieNode) (k : Nat)
    (ts : List (List Nat)) (acc : Nat × Nat × Bool) :
    calcChildren (.nilNode :: rest) (k + 1) ts acc = calcChildren rest k ts acc := rfl

theorem calcChildren_cons_nonnil (c : TrieNode) (hc : notNil c = true)
    (rest : List TrieNode) (k : Nat) (ts : List (List Nat)) (acc : Nat × Nat × Bool) :
    calcChildren (c :: rest) (k + 1) ts acc =
      (if (calculateHashes c ts).1 then
        calcChildren rest k ts (acc.1, acc.2.1 + (calculateHashes c ts).2, true)
      else calcChildren rest k ts (acc.1 + 1, acc.2.1, acc.2.2)) := by
  cases c with
  | nilNode => simp [notNil] at hc
  | hashNode pre key value hash path => rfl
  | shortNode p k2 v hv => rfl
  | fullNode p ch hv => rfl

/-- The slot costs of the first `k` slots of a child list: the result
of `calculateHashes` on every non-empty one. -/
theorem calcChildren_spec (ch : List TrieNode) :
    ∀ (k : Nat) (ts : List (List Nat)) (a s : Nat) (f : Bool),
      calcChildren ch k ts (a, s, f) =
        (a + ((((ch.take k).filter notNil).map fun c => calculateHashes c ts).filter
            fun r => !r.1).length,
          s + (((((ch.take k).filter notNil).map fun c => calculateHashes c ts).filter
            fun r => r.1).map fun r => r.2).sum,
          f || ((((ch.take k).filter notNil).map fun c => calculateHashes c ts).any
            fun r => r.1)) := by
  induction ch with
  | nil =>
      intro k ts a s f
      cases k <;> simp [calcChildren]
  | cons c rest ih =>
      intro k ts a s f
      cases k with
      | zero => simp [calcChildren]
      | succ k =>
          cases hc : notNil c with
          | false =>
              rw [notNil_eq_false c hc] at *
              rw [calcChildren_cons_nil, ih]
              simp [notNil]
          | true =>
              rw [calcChildren_cons_nonnil c hc]
              rcases hr : calculateHashes c ts with ⟨fb, nb⟩
              simp only [List.take_succ_cons, List.filter_cons, hc, if_true,
                List.map_cons, hr, List.filter_cons, List.any_cons]
              cases fb with
              | true =>
                  simp only [if_true, ih, Bool.true_or, Bool.or_true, Bool.not_true,
                    Bool.false_eq_true, if_false, List.map_cons, List.sum_cons,
                    Prod.mk.injEq, true_and, and_true]
                  omega
              | false =>
                  simp only [Bool.false_eq_true, if_false, ih, Bool.not_false,
                    if_true, List.length_cons, Prod.mk.injEq, Bool.false_or,
                    true_and, and_true]
                  omega

/-- Claim C2 (amended): on a Branch the code applies the claimed
proof-cost rule to the first sixteen slots only; slot 16 is neither
evaluated nor counted. -/
theorem branch_cost_sixteen_slots (p : List Nat) (ch : List TrieNode)
    (hv : List Nat) (ts : List (List Nat)) :
    calculateHashes (.fullNode p ch hv) ts = specBranchCost (ch.take 16) ts := by
  show (let st := calcChildren ch 16 ts (0, 0, false);
    if st.2.2 then (true, st.2.1 + st.1) else (false, 0)) = _
  rw [calcChildren_spec]
  simp only [Nat.zero_add, Bool.false_or, specBranchCost]
  rcases hany : (((ch.take 16).filter notNil).map fun c => calculateHashes c ts).any
      fun r => r.1 with _ | _
  · rw [if_neg (by simp), if_pos]
    rw [List.any_eq_false] at hany
    rw [List.length_eq_zero, List.filter_eq_nil_iff]
    intro r hr
    simpa using hany r hr
  · rw [if_pos (by simp)]
    have hne : ((((ch.take 16).filter notNil).map fun c => calculateHashes c ts).filter
        fun r => r.1).length ≠ 0 := by
      rw [List.any_eq_true] at hany
      obtain ⟨r, hr, hr1⟩ := hany
      intro hlen
      rw [List.length_eq_zero, List.filter_eq_nil_iff] at hlen
      exact absurd hr1 (by simpa using hlen r hr)
    rw [if_neg hne]

theorem notNil_of_not_nilNode (v : TrieNode) (h : v = .nilNode → False) :
    notNil v = true := by
  cases hv : notNil v with
  | true => rfl
  | false => exact absurd (notNil_eq_false v hv) h

/-- A subtree none of whose leaf keys nibble-encodes into the target
list reports `(false, 0)`. -/
theorem calc_no_match (n : TrieNode) (ts : List (List Nat))
    (h : ∀ kk ∈ leafKeys n, keyToNibbles kk ∉ ts) :
    calculateHashes n ts = (false, 0) := by
  refine calculateHashes.induct
    (fun n ts => (∀ kk ∈ leafKeys n, keyToNibbles kk ∉ ts) →
      calculateHashes n ts = (false, 0))
    (fun ch k ts acc => (∀ kk ∈ leafKeysList ch, keyToNibbles kk ∉ ts) →
      (calcChildren ch k ts acc).2.2 = acc.2.2)
    ?_ ?_ ?_ ?_ ?_ ?_ ?_ ?_ ?_ ?_ n ts h
  · intro ts2 _
    rfl
  · intro pre key value hash path ts2 hno
    have hkey : keyToNibbles key ∉ ts2 := hno key (by simp [leafKeys])
    simp only [calculateHashes, Prod.mk.injEq, and_true]
    rw [List.any_eq_false]
    intro t ht hcontra
    exact hkey (by rw [of_decide_eq_true hcontra]; exact ht)
  · intro p k v hv ts2 ih hno
    simp only [calculateHashes]
    exact ih (by simpa [leafKeys] using hno)
  · intro p ch hv ts2 st hst ih hno
    have := ih (by simpa [leafKeys] using hno)
    simp only [Prod.snd] at this
    rw [this] at hst
    cases hst
  · intro p ch hv ts2 st hst ih hno
    simp only [calculateHashes]
    rw [if_neg hst]
  · intro t x acc _
    cases t <;> rfl
  · intro x x1 acc hx _
    cases x with
    | zero => exact absurd rfl hx
    | succ k => rfl
  · intro rest k ts2 acc ih hno
    rw [calcChildren_cons_nil]
    exact ih (by simpa [leafKeysList, leafKeys] using hno)
  · intro rest k ts2 acc v hv r hr ih1 _ hno
    have hnov : ∀ kk ∈ leafKeys v, keyToNibbles kk ∉ ts2 := by
      intro kk hkk
      exact hno kk (by simp only [leafKeysList, List.mem_append]; exact Or.inl hkk)
    have hr2 : (calculateHashes v ts2).1 = true := hr
    rw [ih1 hnov] at hr2
    cases hr2
  · intro rest k ts2 acc v hv r hr ih1 ih2 hno
    rw [calcChildren_cons_nonnil v (notNil_of_not_nilNode v hv)]
    rw [if_neg hr]
    exact ih2 (fun kk hkk =>
      hno kk (by simp only [leafKeysList, List.mem_append]; exact Or.inr hkk))

/-- Claim C4: the proof-cost entry point is total, non-negative, and
returns 0 on the empty trie, on an empty target set, and when no
target equals the full key of any leaf. -/
theorem required_hashes_zero_cases (t : Trie) (txs : List (List Nat)) :
    0 ≤ CalculateRequiredHashes2 t txs ∧
      (t.root = .nilNode → CalculateRequiredHashes2 t txs = 0) ∧
      (txs = [] → CalculateRequiredHashes2 t txs = 0) ∧
      ((∀ kk ∈ leafKeys t.root, kk ∉ txs) → CalculateRequiredHashes2 t txs = 0) := by
  refine ⟨Nat.zero_le _, ?_, ?_, ?_⟩
  · intro h
    rcases t with ⟨root⟩
    simp only at h
    subst h
    cases txs <;> rfl
  · intro h
    subst h
    rcases t with ⟨root⟩
    cases root <;> rfl
  · intro h
    rcases t with ⟨root⟩
    simp only at h
    have hnib : ∀ kk ∈ leafKeys root, keyToNibbles kk ∉ txs.map keyToNibbles := by
      intro kk hkk hmem
      obtain ⟨tx, htx, heq⟩ := List.mem_map.mp hmem
      exact h kk hkk (keyToNibbles_inj tx kk heq ▸ htx)
    cases root with
    | nilNode => cases txs <;> rfl
    | hashNode pre key value hash path =>
        cases txs with
        | nil => rfl
        | cons t0 trest =>
            show (if (calculateHashes (.hashNode pre key value hash path)
              ((t0 :: trest).map keyToNibbles)).1 then _ else 0) = 0
            rw [calc_no_match _ _ hnib]
            rfl
    | shortNode p k v hv =>
        cases txs with
        | nil => rfl
        | cons t0 trest =>
            show (if (calculateHashes (.shortNode p k v hv)
              ((t0 :: trest).map keyToNibbles)).1 then _ else 0) = 0
            rw [calc_no_match _ _ hnib]
            rfl
    | fullNode p ch hv =>
        cases txs with
        | nil => rfl
        | cons t0 trest =>
            show (if (calculateHashes (.fullNode p ch hv)
              ((t0 :: trest).map keyToNibbles)).1 then _ else 0) = 0
            rw [calc_no_match _ _ hnib]
            rfl

/-- Witness for the zero cases of the proof-cost entry point at the
empty trie and a one-target set. -/
theorem required_hashes_zero_cases_witness :
    CalculateRequiredHashes2 NewTrie [[1]] = 0 :=
  (required_hashes_zero_cases NewTrie [[1]]).2.1 rfl

theorem calcChildrenT_cons_nil (rest : List TrieNode) (k : Nat)
    (ts : List (List Nat)) (acc : Nat × Nat × Bool) :
    calcChildrenT (.nilNode :: rest) (k + 1) ts acc =
      ((calcChildrenT rest k ts acc).1, .nilNode :: (calcChildrenT rest k ts acc).2) := rfl

theorem calcChildrenT_cons_nonnil (c : TrieNode) (hc : notNil c = true)
    (rest : List TrieNode) (k : Nat) (ts : List (List Nat)) (acc : Nat × Nat × Bool) :
    calcChildrenT (c :: rest) (k + 1) ts acc =
      (let rc := calculateHashesT c ts
       let acc2 := if rc.1.1 then (acc.1, acc.2.1 + rc.1.2, true)
         else (acc.1 + 1, acc.2.1, acc.2.2)
       let r := calcChildrenT rest k ts acc2
       (r.1, rc.2 :: r.2)) := by
  cases c with
  | nilNode => simp [notNil] at hc
  | hashNode pre key value hash path => rfl
  | shortNode p k2 v hv => rfl
  | fullNode p ch hv => rfl

/-- The state-threaded traversal returns exactly the same answer as
`calculateHashes` and rebuilds exactly the node it was given. -/
theorem calculateHashesT_eq (n : TrieNode) (ts : List (List Nat)) :
    calculateHashesT n ts = (calculateHashes n ts, n) := by
  refine calculateHashesT.induct
    (fun n ts => calculateHashesT n ts = (calculateHashes n ts, n))
    (fun ch k ts acc => calcChildrenT ch k ts acc = (calcChildren ch k ts acc, ch))
    ?_ ?_ ?_ ?_ ?_ ?_ ?_ ?_ n ts
  · intro ts2
    rfl
  · intro pre key value hash path ts2
    rfl
  · intro p k v hv ts2 ih
    simp only [calculateHashesT, calculateHashes, ih]
  · intro p ch hv ts2 ih
    simp only [calculateHashesT, calculateHashes, ih]
  · intro t x acc
    cases t <;> rfl
  · intro x x1 acc hx
    cases x with
    | zero => exact absurd rfl hx
    | succ k => rfl
  · intro rest k ts2 acc ih
    rw [calcChildrenT_cons_nil, calcChildren_cons_nil, ih]
  · intro rest k ts2 acc v hv rc acc2 ih1 ih2
    simp only [acc2, rc, ih1] at ih2
    rw [calcChildrenT_cons_nonnil v (notNil_of_not_nilNode v hv),
      calcChildren_cons_nonnil v (notNil_of_not_nilNode v hv)]
    simp only [ih1]
    cases hfb : (calculateHashes v ts2).1
    · rw [hfb] at ih2
      simp only [Bool.false_eq_true, if_false] at ih2 ⊢
      rw [ih2]
    · rw [hfb] at ih2
      simp only [if_true] at ih2 ⊢
      rw [ih2]

/-- Claim C10: the proof-cost computation is read-only — the
state-threaded rendering returns the count of the plain function
together with a trie identical to the input, every field included, so
the root digest is unchanged. -/
theorem cost_computation_read_only (t : Trie) (ts : List (List Nat)) :
    CalculateRequiredHashes2T t ts = (CalculateRequiredHashes2 t ts, t) ∧
      ∀ H, rootDigest H (CalculateRequiredHashes2T t ts).2 = rootDigest H t := by
  have hmain : CalculateRequiredHashes2T t ts = (CalculateRequiredHashes2 t ts, t) := by
    rcases t with ⟨root⟩
    cases root with
    | nilNode => cases ts <;> rfl
    | hashNode pre key value hash path =>
        cases ts with
        | nil => rfl
        | cons t0 trest =>
            simp only [CalculateRequiredHashes2T, CalculateRequiredHashes2,
              calculateHashesT_eq]
    | shortNode p k v hv =>
        cases ts with
        | nil => rfl
        | cons t0 trest =>
            simp only [CalculateRequiredHashes2T, CalculateRequiredHashes2,
              calculateHashesT_eq]
    | fullNode p ch hv =>
        cases ts with
        | nil => rfl
        | cons t0 trest =>
            simp only [CalculateRequiredHashes2T, CalculateRequiredHashes2,
              calculateHashesT_eq]
  exact ⟨hmain, fun H => by rw [hmain]⟩

theorem childrenData_eq_spec (H : List Nat → List Nat) (ch : List TrieNode) :
    ∀ i, childrenData H ch i = specBranchData i (childDigests H ch) := by
  induction ch with
  | nil => intro i; rfl
  | cons c rest ih =>
      intro i
      cases c with
      | nilNode =>
          simp only [childrenData, childDigests, List.map_cons, specBranchData]
          simpa [childDigests] using ih (i + 1)
      | hashNode pre key value hash path =>
          simp only [childrenData, childDigests, List.map_cons, specBranchData]
          simpa [childDigests] using ih (i + 1)
      | shortNode p k v hv =>
          simp only [childrenData, childDigests, List.map_cons, specBranchData]
          simpa [childDigests] using ih (i + 1)
      | fullNode p chi hv =>
          simp only [childrenData, childDigests, List.map_cons, specBranchData]
          simpa [childDigests] using ih (i + 1)

theorem specBranchData_head (ds : List (Option (List Nat))) :
    ∀ i x l, specBranchData i ds = x :: l → i ≤ x := by
  induction ds with
  | nil => intro i x l h; cases h
  | cons o rest ih =>
      intro i x l h
      cases o with
      | none => exact Nat.le_of_succ_le (ih (i + 1) x l h)
      | some d =>
          simp only [specBranchData, List.cons.injEq] at h
          omega

theorem specBranchData_inj (ds1 : List (Option (List Nat))) :
    ∀ (ds2 : List (Option (List Nat))) (i : Nat), ds1.length = ds2.length →
      (∀ d, some d ∈ ds1 → d.length = 32) →
      (∀ d, some d ∈ ds2 → d.length = 32) →
      specBranchData i ds1 = specBranchData i ds2 → ds1 = ds2 := by
  induction ds1 with
  | nil =>
      intro ds2 i hlen _ _ _
      cases ds2 with
      | nil => rfl
      | cons o rest => cases hlen
  | cons o1 rest1 ih =>
      intro ds2 i hlen h1 h2 heq
      cases ds2 with
      | nil => cases hlen
      | cons o2 rest2 =>
          have hlen2 : rest1.length = rest2.length := by
            simpa using hlen
          have h1r : ∀ d, some d ∈ rest1 → d.length = 32 :=
            fun d hd => h1 d (List.mem_cons_of_mem o1 hd)
          have h2r : ∀ d, some d ∈ rest2 → d.length = 32 :=
            fun d hd => h2 d (List.mem_cons_of_mem o2 hd)
          cases o1 with
          | none =>
              cases o2 with
              | none =>
                  simp only [specBranchData] at heq
                  rw [ih rest2 (i + 1) hlen2 h1r h2r heq]
              | some d2 =>
                  simp only [specBranchData] at heq
                  cases hL : specBranchData (i + 1) rest1 with
                  | nil => rw [hL] at heq; cases heq
                  | cons x l =>
                      rw [hL] at heq
                      have hx := specBranchData_head rest1 (i + 1) x l hL
                      simp only [List.cons.injEq] at heq
                      omega
          | some d1 =>
              cases o2 with
              | none =>
                  simp only [specBranchData] at heq
                  cases hR : specBranchData (i + 1) rest2 with
                  | nil => rw [hR] at heq; cases heq
                  | cons x l =>
                      rw [hR] at heq
                      have hx := specBranchData_head rest2 (i + 1) x l hR
                      simp only [List.cons.injEq] at heq
                      omega
              | some d2 =>
                  simp only [specBranchData, List.cons.injEq, true_and] at heq
                  have hd1 : d1.length = 32 := h1 d1 (List.mem_cons_self _ _)
                  have hd2 : d2.length = 32 := h2 d2 (List.mem_cons_self _ _)
                  obtain ⟨hdd, htt⟩ := List.append_inj heq (by omega)
                  rw [hdd, ih rest2 (i + 1) hlen2 h1r h2r htt]

/-- Claim C6: the Branch digest is the hash of the concatenation, in
ascending slot order 0..16, of the slot index byte followed by the
child digest over the non-empty slots only; consequently (for a
collision-free hash whose child digests are 32 bytes wide, as
Keccak-256 digests are) two Branches whose per-slot digest assignments
differ — in particular the same digests placed in different slots —
have different digests. -/
theorem branch_digest_formula :
    (∀ (H : List Nat → List Nat) (p : List Nat) (ch : List TrieNode) (hv : List Nat),
      ComputeHash H (.fullNode p ch hv) = H (specBranchData 0 (childDigests H ch))) ∧
    (∀ H : List Nat → List Nat, Function.Injective H →
      ∀ (p1 p2 hv1 hv2 : List Nat) (ch1 ch2 : List TrieNode),
        ch1.length = ch2.length →
        (∀ d, some d ∈ childDigests H ch1 → d.length = 32) →
        (∀ d, some d ∈ childDigests H ch2 → d.length = 32) →
        childDigests H ch1 ≠ childDigests H ch2 →
        ComputeHash H (.fullNode p1 ch1 hv1) ≠ ComputeHash H (.fullNode p2 ch2 hv2)) := by
  have hformula : ∀ (H : List Nat → List Nat) (p : List Nat) (ch : List TrieNode)
      (hv : List Nat),
      ComputeHash H (.fullNode p ch hv) = H (specBranchData 0 (childDigests H ch)) := by
    intro H p ch hv
    show H (childrenData H ch 0) = _
    rw [childrenData_eq_spec]
  refine ⟨hformula, ?_⟩
  intro H hinj p1 p2 hv1 hv2 ch1 ch2 hlen hd1 hd2 hne heq
  rw [hformula, hformula] at heq
  apply hne
  refine specBranchData_inj (childDigests H ch1) (childDigests H ch2) 0 ?_ hd1 hd2
    (hinj heq)
  simp only [childDigests, List.length_map, hlen]

/-- Witness for the Branch digest formula: with the identity as the
hash function, one 32-byte leaf placed in slot 0 versus slot 1 yields
different Branch digests. -/
theorem branch_digest_formula_witness :
    ComputeHash (fun d => d)
        (.fullNode []
          (setChild emptyChildren 0
            (.hashNode (List.replicate 31 7) [] [5] zeroHash [])) zeroHash) ≠
      ComputeHash (fun d => d)
        (.fullNode []
          (setChild emptyChildren 1
            (.hashNode (List.replicate 31 7) [] [5] zeroHash [])) zeroHash) :=
  branch_digest_formula.2 (fun d => d) (fun a b h => h) [] [] zeroHash zeroHash
    _ _ (by decide)
    (by
      intro d hd
      have hd2 : d = List.replicate 31 7 ++ [5] := by
        have hmem : some d ∈ [some (List.replicate 31 7 ++ [5]), none, none, none, none,
          none, none, none, none, none, none, none, none, none, none, none, none] := hd
        simpa using hmem
      rw [hd2]
      decide)
    (by
      intro d hd
      have hd2 : d = List.replicate 31 7 ++ [5] := by
        have hmem : some d ∈ [none, some (List.replicate 31 7 ++ [5]), none, none, none,
          none, none, none, none, none, none, none, none, none, none, none, none] := hd
        simpa using hmem
      rw [hd2]
      decide)
    (by decide)

theorem nodeInvList_getD (ch : List TrieNode) (h : nodeInvList ch = true) :
    ∀ i, nodeInv (getChild ch i) = true := by
  induction ch with
  | nil => intro i; cases i <;> rfl
  | cons c rest ih =>
      intro i
      simp only [nodeInvList, Bool.and_eq_true] at h
      cases i with
      | zero => exact h.1
      | succ j => exact ih h.2 j

theorem nodeInvList_set (ch : List TrieNode) (x : TrieNode) (hx : nodeInv x = true) :
    ∀ i, nodeInvList ch = true → nodeInvList (setChild ch i x) = true := by
  induction ch with
  | nil => intro i h; exact h
  | cons c rest ih =>
      intro i h
      simp only [nodeInvList, Bool.and_eq_true] at h
      cases i with
      | zero =>
          show nodeInvList (x :: rest) = true
          simp only [nodeInvList, Bool.and_eq_true]
          exact ⟨hx, h.2⟩
      | succ j =>
          show nodeInvList (c :: setChild rest j x) = true
          simp only [nodeInvList, Bool.and_eq_true]
          exact ⟨h.1, ih j h.2⟩

theorem anyNotNil_set_of_lt (x : TrieNode) (hx : notNil x = true) :
    ∀ (ch : List TrieNode) (i : Nat), i < ch.length →
      (setChild ch i x).any notNil = true := by
  intro ch
  induction ch with
  | nil => intro i hi; cases hi
  | cons c rest ih =>
      intro i hi
      cases i with
      | zero =>
          show ((x :: rest).any notNil) = true
          simp only [List.any_cons, hx, Bool.true_or]
      | succ j =>
          show ((c :: setChild rest j x).any notNil) = true
          simp only [List.any_cons, Bool.or_eq_true]
          exact Or.inr (ih j (by simpa using hi))

theorem anyNotNil_set_of_any (x : TrieNode) (hx : notNil x = true) :
    ∀ (ch : List TrieNode) (i : Nat), ch.any notNil = true →
      (setChild ch i x).any notNil = true := by
  intro ch
  induction ch with
  | nil => intro i h; exact h
  | cons c rest ih =>
      intro i h
      cases i with
      | zero =>
          show ((x :: rest).any notNil) = true
          simp only [List.any_cons, hx, Bool.true_or]
      | succ j =>
          show ((c :: setChild rest j x).any notNil) = true
          simp only [List.any_cons, Bool.or_eq_true] at h ⊢
          rcases h with h | h
          · exact Or.inl h
          · exact Or.inr (ih j h)

theorem emptyChildren_length : emptyChildren.length = 17 := rfl

theorem resolveAndTrack_inv (pre key value hash path key2 pathArg : List Nat)
    (rn : TrieNode)
    (h : resolveAndTrack pre key value hash path key2 pathArg = .ok rn) :
    nodeInv rn = true ∧ notNil rn = true := by
  rw [resolveAndTrack.eq_def] at h
  simp only [] at h
  split at h
  · split at h
    · cases h
    · injection h with h2
      subst h2
      refine ⟨?_, rfl⟩
      simp only [nodeInv, Bool.and_eq_true]
      constructor
      · exact anyNotNil_set_of_lt _ (by rfl) emptyChildren 16 (by decide)
      · exact nodeInvList_set emptyChildren _ (by rfl) 16 (by rfl)
  · split at h
    · injection h with h2
      subst h2
      exact ⟨by simp [nodeInv, notNil], rfl⟩
    · injection h with h2
      subst h2
      refine ⟨?_, rfl⟩
      simp only [nodeInv, Bool.and_eq_true]
      constructor
      · split
        · split
          · exact anyNotNil_set_of_lt _ (by rfl) emptyChildren _
              (by rw [emptyChildren_length]; omega)
          · exact anyNotNil_set_of_lt _ (by rfl) emptyChildren 16 (by decide)
        · exact anyNotNil_set_of_lt _ (by rfl) emptyChildren 16 (by decide)
      · split
        · split
          · exact nodeInvList_set emptyChildren _ (by rfl) _ (by rfl)
          · exact nodeInvList_set emptyChildren _ (by rfl) 16 (by rfl)
        · exact nodeInvList_set emptyChildren _ (by rfl) 16 (by rfl)

/-- Successful insertion preserves the maintained invariant: the new
subtree root is a real node, its Extensions have real children and its
Branches have an occupied slot. -/
theorem insert_inv : ∀ (fuel : Nat) (n : TrieNode) (path key value : List Nat)
    (n2 : TrieNode), insert fuel n path key value = some (.ok n2) →
    nodeInv n = true → nodeInv n2 = true ∧ notNil n2 = true := by
  intro fuel
  induction fuel with
  | zero => intro n path key value n2 h _; cases h
  | succ fuel ih =>
      intro n path key value n2 h hn
      cases n with
      | nilNode =>
          simp only [insert] at h
          injection h with h2
          injection h2 with h3
          subst h3
          exact ⟨rfl, rfl⟩
      | shortNode nPath nKey nVal nHash =>
          simp only [nodeInv, Bool.and_eq_true] at hn
          simp only [insert] at h
          split at h
          · -- full match: recurse into the child
            cases hrec : insert fuel nVal (path ++ keyToNibbles nKey)
                (key.drop (prefixLen key (keyToNibbles nKey))) value with
            | none => rw [hrec] at h; cases h
            | some r =>
                cases r with
                | error e => rw [hrec] at h; cases h
                | ok nn =>
                    rw [hrec] at h
                    injection h with h2
                    injection h2 with h3
                    subst h3
                    obtain ⟨hnn, hnnil⟩ := ih nVal _ _ value nn hrec hn.2
                    exact ⟨by simp only [nodeInv, Bool.and_eq_true]; exact ⟨hnnil, hnn⟩, rfl⟩
          · split at h
            · -- key is a proper prefix of the segment
              split at h
              · injection h with h2
                injection h2 with h3
                subst h3
                refine ⟨?_, rfl⟩
                simp only [nodeInv, notNil, Bool.and_eq_true]
                refine ⟨trivial, ?_, ?_⟩
                · exact anyNotNil_set_of_any _ (by rfl) _ _
                    (anyNotNil_set_of_lt _ (by rfl) emptyChildren 16 (by decide))
                · refine nodeInvList_set _ _ ?_ _
                    (nodeInvList_set emptyChildren _ (by rfl) 16 (by rfl))
                  simp only [nodeInv, Bool.and_eq_true]
                  exact ⟨hn.1, hn.2⟩
              · cases h
            · split at h
              · -- no common prefix: branch here
                split at h
                · split at h
                  · injection h with h2
                    injection h2 with h3
                    subst h3
                    refine ⟨?_, rfl⟩
                    simp only [nodeInv, Bool.and_eq_true]
                    constructor
                    · exact anyNotNil_set_of_any _ (by rfl) _ _
                        (anyNotNil_set_of_lt _ (by rfl) emptyChildren _
                          (by rw [emptyChildren_length]; omega))
                    · refine nodeInvList_set _ _ (by rfl) _
                        (nodeInvList_set emptyChildren _ ?_ _ (by rfl))
                      simp only [nodeInv, Bool.and_eq_true]
                      exact ⟨hn.1, hn.2⟩
                  · cases h
                · cases h
              · -- partial match: split the segment
                split at h
                · split at h
                  · injection h with h2
                    injection h2 with h3
                    subst h3
                    refine ⟨?_, rfl⟩
                    simp only [nodeInv, notNil, Bool.and_eq_true]
                    refine ⟨trivial, ?_, ?_⟩
                    · exact anyNotNil_set_of_any _ (by rfl) _ _
                        (anyNotNil_set_of_lt _ (by rfl) emptyChildren _
                          (by rw [emptyChildren_length]; omega))
                    · refine nodeInvList_set _ _ (by rfl) _
                        (nodeInvList_set emptyChildren _ ?_ _ (by rfl))
                      simp only [nodeInv, Bool.and_eq_true]
                      exact ⟨hn.1, hn.2⟩
                  · cases h
                · cases h
      | fullNode nPath ch nHash =>
          simp only [nodeInv, Bool.and_eq_true] at hn
          simp only [insert] at h
          cases key with
          | nil => cases h
          | cons k0 krest =>
              simp only [] at h
              split at h
              · cases h
              · cases hrec : insert fuel (getChild ch k0) (path ++ [k0]) krest value with
                | none => rw [hrec] at h; cases h
                | some r =>
                    cases r with
                    | error e => rw [hrec] at h; cases h
                    | ok nn =>
                        rw [hrec] at h
                        injection h with h2
                        injection h2 with h3
                        subst h3
                        obtain ⟨hnn, hnnil⟩ :=
                          ih (getChild ch k0) _ _ value nn hrec (nodeInvList_getD ch hn.2 k0)
                        refine ⟨?_, rfl⟩
                        simp only [nodeInv, Bool.and_eq_true]
                        exact ⟨anyNotNil_set_of_any _ hnnil _ _ hn.1,
                          nodeInvList_set ch _ hnn _ hn.2⟩
      | hashNode pre key0 val0 hsh pth =>
          simp only [insert] at h
          cases hres : resolveAndTrack pre key0 val0 hsh pth key path with
          | error e => rw [hres] at h; cases h
          | ok rn =>
              rw [hres] at h
              exact ih rn path key value n2 h
                (resolveAndTrack_inv pre key0 val0 hsh pth key path rn hres).1

/-- Claim C7 (amended theorem): in every trie reachable from the empty
trie by `Insert` calls, every Extension has a non-nil child and every
Branch has at least one non-empty slot.  (The third conjunct of the
claim — key segments are never empty — fails, see the
counterexample.) -/
theorem reachable_trie_maintained_invariant (t : Trie) (h : Reachable t) :
    nodeInv t.root = true := by
  induction h with
  | empty => rfl
  | step t k v fuel t2 e _ hins ih =>
      rw [Insert] at hins
      split at hins
      · injection hins with h2
        injection h2 with h3 h4
        subst h3
        exact ih
      · cases hrec : insert fuel t.root [] (keyToNibbles k) v with
        | none => rw [hrec] at hins; cases hins
        | some r =>
            cases r with
            | error e2 =>
                rw [hrec] at hins
                injection hins with h2
                injection h2 with h3 h4
                subst h3
                exact ih
            | ok n =>
                rw [hrec] at hins
                injection hins with h2
                injection h2 with h3 h4
                subst h3
                exact (insert_inv fuel t.root [] (keyToNibbles k) v n hrec ih).1

/-- Witness for the maintained invariant at the empty trie. -/
theorem reachable_trie_maintained_invariant_witness :
    nodeInv NewTrie.root = true :=
  reachable_trie_maintained_invariant NewTrie Reachable.empty

theorem prefixLen_self (a : List Nat) : prefixLen a a = a.length := by
  induction a with
  | nil => rfl
  | cons x xs ih => simp [prefixLen, ih]

/-- Claim C3 (amended theorem): when the trie root is a leaf whose
stored suffix `Pre` is exactly the full nibble sequence of the
(non-empty) key being inserted, `Insert` signals the duplicate-key
error (`node exists`) and the caller observes the trie unchanged. -/
theorem duplicate_root_leaf_rejected (t : Trie) (k v kk vv hh pp : List Nat)
    (fuel : Nat) (hroot : t.root = .hashNode (keyToNibbles k) kk vv hh pp)
    (hk : k ≠ []) :
    Insert t k v (fuel + 1) = some (t, some "node exists") := by
  rw [Insert, if_neg (by simpa using hk), hroot]
  simp only [insert]
  rw [resolveAndTrack.eq_def]
  simp only [prefixLen_self, if_pos rfl]
  rfl

/-- Witness for the duplicate-root-leaf rejection at key `0x0A`. -/
theorem duplicate_root_leaf_rejected_witness :
    Insert ⟨.hashNode (keyToNibbles [10]) [10] [1] zeroHash [10]⟩ [10] [2] 5
      = some (⟨.hashNode (keyToNibbles [10]) [10] [1] zeroHash [10]⟩,
          some "node exists") :=
  duplicate_root_leaf_rejected _ [10] [2] [10] [1] zeroHash [10] 4 rfl (by decide)

end MPT
